import Mathlib

/-!
# Verification of `binary_prefix`

A shallow embedding of the Rust crate `binary_prefix` (`src/lib.rs`), which
computes prefix relationships between binary (bit) sequences.  Bit sequences
(`&[bool]` in the source) are modelled as `List Bool`; Rust slice views are
modelled by the sub-lists they denote.  A Rust slice expression `&xs[a..b]`
panics when `a > b` or `b > xs.len()`; we model this with `sliceChecked`
returning `Option`, and `rangePrefix` consequently returns `none` exactly
when the Rust function would panic.
-/

set_option autoImplicit false

namespace BinaryPrefix

/-- Embedding of `pad(size, input)`: the loop `for _ in input_len..size`
pushes `size - input_len` zero bits (none when `input_len >= size`, matching
saturating `Nat` subtraction), then the contents of `input` are appended. -/
def pad (size : Nat) (input : List Bool) : List Bool :=
  List.replicate (size - input.length) false ++ input

/-- The loop body state of `find_seq`: `expected` is the mutable
`expected_value`, `initial` the immutable first parameter.  Each matching
entry adds one to the count; after a match the code sets
`expected_value = !initial` only when `expected_value == initial` still
holds, i.e. the expectation flips at most once. -/
def findSeqAux (initial : Bool) : Bool → List Bool → Nat
  | _, [] => 0
  | expected, x :: xs =>
    if x = expected then
      1 + findSeqAux initial (if expected = initial then !initial else expected) xs
    else 0

/-- Embedding of the private Rust helper `find_seq(initial, collection)`. -/
def find_seq (initial : Bool) (collection : List Bool) : Nat :=
  findSeqAux initial initial collection

/-- The `slice_end` counter computed by the loop in `shared_prefix`:
the number of leading positions where the two sequences agree, stopping at
the first mismatch or when either sequence is exhausted (`zip`). -/
def sharedPrefixLen : List Bool → List Bool → Nat
  | a :: as, b :: bs => if a = b then sharedPrefixLen as bs + 1 else 0
  | _, _ => 0

/-- Embedding of `shared_prefix(start, end)`: the view `&start[0..slice_end]`. -/
def sharedPrefix (start e : List Bool) : List Bool :=
  start.take (sharedPrefixLen start e)

/-- Rust slice indexing `&xs[a..b]`: defined when `a <= b <= xs.len()`,
a panic (`none`) otherwise. -/
def sliceChecked (xs : List Bool) (a b : Nat) : Option (List Bool) :=
  if a ≤ b ∧ b ≤ xs.length then some ((xs.take b).drop a) else none

/-- Embedding of `range_prefix(start, end)`.  Slice expressions are taken in
the order the Rust code evaluates them; `none` models a Rust panic on an
out-of-bounds slice. -/
def rangePrefix (start e : List Bool) : Option (List Bool × List Bool) :=
  let segmentLen := e.length
  let baseLen := ( sharedPrefix start e).length
  (sliceChecked start baseLen segmentLen).bind fun s1 =>
  (sliceChecked e baseLen segmentLen).bind fun s2 =>
  let startSpecial := find_seq false s1
  let endSpecial := find_seq true s2
  (sliceChecked start 0 (baseLen + startSpecial)).bind fun p1 =>
  (sliceChecked e 0 (baseLen + endSpecial)).map fun p2 =>
  (p1, p2)

/-- The length of the maximal leading run of `l` whose bits all equal `b`
(specification-side helper used to state what `find_seq` computes). -/
def countRun (b : Bool) : List Bool → Nat
  | [] => 0
  | x :: xs => if x = b then 1 + countRun b xs else 0

/-- The run finder as §4.3 of the spec words it: a leading run that
*strictly alternates* starting with `initial`, the expected bit flipping at
every matched position.  Stated for comparison with `find_seq`. -/
def findSeqSpecAlternating (initial : Bool) : List Bool → Nat
  | [] => 0
  | x :: xs => if x = initial then 1 + findSeqSpecAlternating (!initial) xs else 0

/-! ## Helper lemmas -/

lemma findSeqAux_flipped (b : Bool) (l : List Bool) :
    findSeqAux b (!b) l = countRun (!b) l := by
  induction l with
  | nil => rfl
  | cons x xs ih =>
    cases b <;> simp only [Bool.not_false, Bool.not_true] at ih <;>
      simp [findSeqAux, countRun, ih]

lemma find_seq_eq (b : Bool) (s : List Bool) :
    find_seq b s =
      match s with
      | [] => 0
      | x :: xs => if x = b then 1 + countRun (!b) xs else 0 := by
  cases s with
  | nil => rfl
  | cons x xs =>
    simp [find_seq, findSeqAux, findSeqAux_flipped]

lemma countRun_le_length (b : Bool) (l : List Bool) : countRun b l ≤ l.length := by
  induction l with
  | nil => simp [countRun]
  | cons x xs ih =>
    by_cases h : x = b
    · simp [countRun, h]
      omega
    · simp [countRun, h]

lemma find_seq_le_length (b : Bool) (s : List Bool) : find_seq b s ≤ s.length := by
  rw [find_seq_eq]
  cases s with
  | nil => simp
  | cons x xs =>
    by_cases h : x = b
    · have := countRun_le_length (!b) xs
      simp [h]
      omega
    · simp [h]

lemma sharedPrefixLen_le_left (a b : List Bool) :
    sharedPrefixLen a b ≤ a.length := by
  induction a generalizing b with
  | nil => simp [sharedPrefixLen]
  | cons x xs ih =>
    cases b with
    | nil => simp [sharedPrefixLen]
    | cons y ys =>
      by_cases h : x = y <;> simp [sharedPrefixLen, h]
      exact ih ys

lemma sharedPrefixLen_le_right (a b : List Bool) :
    sharedPrefixLen a b ≤ b.length := by
  induction a generalizing b with
  | nil => simp [sharedPrefixLen]
  | cons x xs ih =>
    cases b with
    | nil => simp [sharedPrefixLen]
    | cons y ys =>
      by_cases h : x = y <;> simp [sharedPrefixLen, h]
      exact ih ys

lemma sharedPrefixLen_nil_left (b : List Bool) : sharedPrefixLen [] b = 0 := by
  cases b <;> rfl

lemma take_sharedPrefixLen_eq (a b : List Bool) :
    a.take (sharedPrefixLen a b) = b.take (sharedPrefixLen a b) := by
  induction a generalizing b with
  | nil => simp [sharedPrefixLen_nil_left]
  | cons x xs ih =>
    cases b with
    | nil => simp [sharedPrefixLen]
    | cons y ys =>
      by_cases h : x = y <;> simp [sharedPrefixLen, h]
      exact ih ys

lemma sharedPrefixLen_self (a : List Bool) : sharedPrefixLen a a = a.length := by
  induction a with
  | nil => rfl
  | cons x xs ih => simp [sharedPrefixLen, ih]

lemma sharedPrefixLen_mismatch (a b : List Bool)
    (ha : sharedPrefixLen a b < a.length) (hb : sharedPrefixLen a b < b.length) :
    a[sharedPrefixLen a b]? ≠ b[sharedPrefixLen a b]? := by
  induction a generalizing b with
  | nil => simp at ha
  | cons x xs ih =>
    cases b with
    | nil => simp at hb
    | cons y ys =>
      by_cases h : x = y
      · have hxs : sharedPrefixLen (x :: xs) (y :: ys) = sharedPrefixLen xs ys + 1 := by
          simp [sharedPrefixLen, h]
        rw [hxs] at ha hb ⊢
        simpa using ih ys (by simpa using ha) (by simpa using hb)
      · have hxs : sharedPrefixLen (x :: xs) (y :: ys) = 0 := by
          simp [sharedPrefixLen, h]
        rw [hxs]
        simpa using h

lemma sharedPrefix_length (a b : List Bool) :
    ( sharedPrefix a b).length = sharedPrefixLen a b := by
  simp [ sharedPrefix, List.length_take, Nat.min_eq_left (sharedPrefixLen_le_left a b)]

/-- Master characterization of `rangePrefix`: it succeeds exactly when
`end` is no longer than `start` (otherwise the Rust slice
`&start[base_len..end.len()]` panics), and on success returns the two
prefixes of lengths `base_len + start_special` and `base_len + end_special`. -/
lemma rangePrefix_eq (start e : List Bool) :
    rangePrefix start e =
      if e.length ≤ start.length then
        some (start.take (sharedPrefixLen start e +
                find_seq false ((start.take e.length).drop (sharedPrefixLen start e))),
              e.take (sharedPrefixLen start e +
                find_seq true (e.drop (sharedPrefixLen start e)))) else none := by
  have h1 := sharedPrefixLen_le_left start e
  have h2 := sharedPrefixLen_le_right start e
  by_cases h : e.length ≤ start.length
  · have hs1len : ((start.take e.length).drop (sharedPrefixLen start e)).length =
        e.length - sharedPrefixLen start e := by
      simp [List.length_drop, List.length_take, Nat.min_eq_left h]
    have hss : find_seq false ((start.take e.length).drop (sharedPrefixLen start e)) ≤
        e.length - sharedPrefixLen start e := hs1len ▸ find_seq_le_length _ _
    have hes : find_seq true (e.drop (sharedPrefixLen start e)) ≤
        e.length - sharedPrefixLen start e := by
      have := find_seq_le_length true (e.drop (sharedPrefixLen start e))
      simpa [List.length_drop] using this
    rw [if_pos h]
    simp only [ rangePrefix, sharedPrefix_length, sliceChecked]
    rw [if_pos ⟨h2, h⟩, if_pos ⟨h2, le_refl _⟩]
    simp only [Option.some_bind, List.take_length]
    rw [if_pos ⟨Nat.zero_le _, by omega⟩, if_pos ⟨Nat.zero_le _, by omega⟩]
    simp [List.drop_zero]
  · rw [if_neg h]
    simp only [ rangePrefix, sharedPrefix_length, sliceChecked]
    rw [if_neg (by omega)]
    rfl

lemma sharedPrefixLen_nil_right (a : List Bool) : sharedPrefixLen a [] = 0 := by
  cases a <;> rfl

/-! ## Claims -/

/-- Claim C1 (counterexample): `find_seq` does not count a strictly
alternating run.  On `initial_bit = false` and `s = [false, true, false]`
the strictly alternating leading run (`false, true, false`) has length 3,
but `find_seq` returns 2: after the first match the expected bit flips to
`true` and never flips back, so the third bit `false` breaks the run. -/
theorem c1_counterexample :
    find_seq false [false, true, false] = 2 ∧
    findSeqSpecAlternating false [false, true, false] = 3 := by
  decide

/-- Claim C1 (amended): `find_seq(initial_bit, s)` returns 0 when `s` is
empty or `s[0] ≠ initial_bit`, and otherwise `1 +` the length of the
maximal leading run of `s[1..]` whose bits all equal `!initial_bit`: the
expected bit flips exactly once after the first match, it does not keep
alternating. -/
theorem c1_find_seq_first_bit_then_constant_run (b : Bool) (s : List Bool) :
    find_seq b s =
      match s with
      | [] => 0
      | x :: xs => if x = b then 1 + countRun (!b) xs else 0 :=
  find_seq_eq b s

/-- Claim C2 (code behaviour at the failing input): with `start = []` and
`end = [false]` (start shorter than end), the Rust code slices
`start[0..1]` out of bounds and panics — modelled by `none` — instead of
returning an explicit InvalidRange error value. -/
theorem c2_shorter_start_panics :
    rangePrefix [] [false] = none := by
  decide

/-- Claim C3: Scenario D — `range_prefix` on the documented ten-bit pair
returns the full start sequence and the first eight bits of the end
sequence. -/
theorem c3_scenario_d :
    rangePrefix
      [true, false, true, false, true, false, false, false, true, true]
      [true, false, true, false, true, false, false, true, true, true] =
    some ([true, false, true, false, true, false, false, false, true, true],
          [true, false, true, false, true, false, false, true]) := by
  decide

/-- Claim C4: `shared_prefix(a, b)` is a common leading sub-range of both
inputs, is maximal (its length is `min` of the lengths or the next
positions differ), and is empty when the inputs diverge at position 0 or
either input is empty. -/
theorem c4_shared_correct (a b : List Bool) :
    sharedPrefix a b = a.take ( sharedPrefix a b).length ∧
    sharedPrefix a b = b.take ( sharedPrefix a b).length ∧
    (( sharedPrefix a b).length = min a.length b.length ∨
      a[( sharedPrefix a b).length]? ≠ b[( sharedPrefix a b).length]?) ∧
    (a = [] ∨ b = [] → sharedPrefix a b = []) ∧
    (a.head? ≠ b.head? → sharedPrefix a b = []) := by
  have h1 := sharedPrefixLen_le_left a b
  have h2 := sharedPrefixLen_le_right a b
  have hlen := sharedPrefix_length a b
  refine ⟨by rw [hlen]; rfl, by rw [hlen]; exact take_sharedPrefixLen_eq a b, ?_, ?_, ?_⟩
  · rw [hlen]
    by_cases hm : sharedPrefixLen a b < a.length ∧ sharedPrefixLen a b < b.length
    · exact Or.inr (sharedPrefixLen_mismatch a b hm.1 hm.2)
    · left
      omega
  · rintro (rfl | rfl)
    · simp [ sharedPrefix]
    · simp [ sharedPrefix, sharedPrefixLen_nil_right]
  · intro hne
    cases a with
    | nil => simp [ sharedPrefix]
    | cons x xs =>
      cases b with
      | nil => simp [ sharedPrefix, sharedPrefixLen_nil_right]
      | cons y ys =>
        have : x ≠ y := by simpa using hne
        simp [ sharedPrefix, sharedPrefixLen, this]

/-- Witness for C4 at `a = [true]`, `b = []`. -/
theorem c4_witness : sharedPrefix [true] [] = [] :=
  (c4_shared_correct [true] []).2.2.2.1 (Or.inr rfl)

/-- Claim C5: whenever `range_prefix(start, end)` returns a pair, both
components begin with `shared_prefix(start, end)`, and in particular each
length of each component is at least the shared-prefix length. -/
theorem c5_components_contain_base (start e : List Bool) (p : List Bool × List Bool)
    (h : rangePrefix start e = some p) :
    sharedPrefix start e <+: p.1 ∧ sharedPrefix start e <+: p.2 ∧
    ( sharedPrefix start e).length ≤ p.1.length ∧
    ( sharedPrefix start e).length ≤ p.2.length := by
  rw [rangePrefix_eq] at h
  by_cases hle : e.length ≤ start.length
  · rw [if_pos hle] at h
    have hp := Option.some.inj h
    have hp1 : p.1 = start.take (sharedPrefixLen start e +
        find_seq false ((start.take e.length).drop (sharedPrefixLen start e))) := by
      rw [← hp]
    have hp2 : p.2 = e.take (sharedPrefixLen start e +
        find_seq true (e.drop (sharedPrefixLen start e))) := by
      rw [← hp]
    have key : ∀ (l : List Bool) (k : Nat),
        l.take (sharedPrefixLen start e) <+: l.take (sharedPrefixLen start e + k) := by
      intro l k
      have : (l.take (sharedPrefixLen start e + k)).take (sharedPrefixLen start e) =
          l.take (sharedPrefixLen start e) := by
        rw [List.take_take]
        congr 1
        omega
      rw [← this]
      exact List.take_prefix _ _
    have hb1 : sharedPrefix start e <+: p.1 := by
      rw [hp1]
      exact key start _
    have hb2 : sharedPrefix start e <+: p.2 := by
      rw [hp2, sharedPrefix, take_sharedPrefixLen_eq]
      exact key e _
    exact ⟨hb1, hb2, hb1.length_le, hb2.length_le⟩
  · rw [if_neg hle] at h
    exact absurd h (by simp)

/-- Witness for C5 at `start = [true, false]`, `end = [true]`, where
`range_prefix` returns `([true], [true])`. -/
theorem c5_witness :
    sharedPrefix [true, false] [true] <+: ([true] : List Bool) ∧
    sharedPrefix [true, false] [true] <+: ([true] : List Bool) ∧
    ( sharedPrefix [true, false] [true]).length ≤ 1 ∧
    ( sharedPrefix [true, false] [true]).length ≤ 1 :=
  c5_components_contain_base [true, false] [true] ([true], [true]) (by decide)

/-- Claim C6: `range_prefix(x, x)` succeeds and both returned prefixes
equal the full input sequence. -/
theorem c6_range_on_equal_inputs (x : List Bool) :
    rangePrefix x x = some (x, x) := by
  rw [rangePrefix_eq, if_pos le_rfl, sharedPrefixLen_self]
  simp [find_seq, findSeqAux]

/-- Claim C7: `pad(size, input)` has length `max(size, input.len())`; when
`input.len() >= size` it returns `input` unchanged (no truncation), and
otherwise it is `size - input.len()` zero bits followed by `input`.  `pad`
is total: every input, including the empty sequence, yields a result. -/
theorem c7_pad_correct (size : Nat) (input : List Bool) :
    (pad size input).length = max size input.length ∧
    (size ≤ input.length → pad size input = input) ∧
    (input.length < size →
      pad size input = List.replicate (size - input.length) false ++ input) := by
  refine ⟨?_, ?_, fun _ => rfl⟩
  · simp [pad]
    omega
  · intro h
    simp [pad, Nat.sub_eq_zero_of_le h]

/-- Witness for C7 at `size = 2`, `input = [true, false, true]` (no
truncation) and the padding branch is exercised through the length
equation. -/
theorem c7_witness :
    2 ≤ 3 ∧ pad 2 [true, false, true] = [true, false, true] :=
  ⟨by decide, (c7_pad_correct 2 [true, false, true]).2.1 (by decide)⟩

/-- Claim C8: on empty `start` and empty `end`, `shared_prefix` returns the
empty sequence and `range_prefix` performs no out-of-bounds slicing,
returning the defined pair of empty prefixes. -/
theorem c8_empty_inputs :
    sharedPrefix [] [] = [] ∧ rangePrefix [] [] = some ([], []) := by
  decide

/-- Claim C9: when `end.len() <= start.len()`, every slice taken inside
`range_prefix` is in bounds — `base_len <= end.len() <= start.len()`, and
each special-run length is at most `end.len() - base_len` — so the
function is total on such inputs (the panic branch is unreachable). -/
theorem c9_in_bounds_when_end_not_longer (start e : List Bool)
    (h : e.length ≤ start.length) :
    sharedPrefixLen start e ≤ e.length ∧
    find_seq false ((start.take e.length).drop (sharedPrefixLen start e)) ≤
      e.length - sharedPrefixLen start e ∧
    find_seq true (e.drop (sharedPrefixLen start e)) ≤
      e.length - sharedPrefixLen start e ∧
    ( rangePrefix start e).isSome = true := by
  have h2 := sharedPrefixLen_le_right start e
  have hs1len : ((start.take e.length).drop (sharedPrefixLen start e)).length =
      e.length - sharedPrefixLen start e := by
    simp [List.length_drop, List.length_take, Nat.min_eq_left h]
  refine ⟨h2, hs1len ▸ find_seq_le_length _ _, ?_, ?_⟩
  · have := find_seq_le_length true (e.drop (sharedPrefixLen start e))
    simpa [List.length_drop] using this
  · rw [rangePrefix_eq, if_pos h]
    rfl

/-- Witness for C9 at `start = [false]`, `end = [true]`. -/
theorem c9_witness :
    ([true] : List Bool).length ≤ ([false] : List Bool).length ∧
    ( rangePrefix [false] [true]).isSome = true :=
  ⟨by decide, (c9_in_bounds_when_end_not_longer [false] [true] (by decide)).2.2.2⟩

/-- Claim C10: `find_seq(b, s)` is 0 when `s` is empty or its head is not
`b`, and otherwise `1 + k` with `k` the length of the maximal leading run
of `s.tail` whose bits all equal `!b`; consequently it never exceeds
`s.len()`. -/
theorem c10_find_seq_characterization (b : Bool) (s : List Bool) :
    (find_seq b s = if s.head? = some b then 1 + countRun (!b) s.tail else 0) ∧
    find_seq b s ≤ s.length := by
  refine ⟨?_, find_seq_le_length b s⟩
  rw [find_seq_eq]
  cases s with
  | nil => simp
  | cons x xs =>
    by_cases hx : x = b <;> simp [hx]

end BinaryPrefix
